import Mathlib

/-!
Shallow embedding of the power-prices plan comparison engine
(`analyse.py`) and verification of its specified properties.

Timestamps are modelled as seconds (naive local time, `Nat`);
`dateOf` is the calendar date (day number), `timeOf` the time of day in
seconds.  Python `timedelta.seconds` (the seconds component, not the
total duration) is modelled by `tdSeconds`.  Monetary amounts and rates
(Python floats) are modelled as exact rationals.  Python exceptions
(`NotImplementedError` on a missing tariff component, `KeyError` on a
missing dict entry) are modelled by `Except String`.
-/

/-- Seconds in one calendar day. -/
def secondsPerDay : Nat := 86400

/-- Calendar date (day number) of a timestamp, as in `period_start.date()`. -/
def dateOf (t : Nat) : Nat := t / secondsPerDay

/-- Time of day in seconds, as in `date.time()`. -/
def timeOf (t : Nat) : Nat := t % secondsPerDay

/-- Weekday of a timestamp, Monday = 0 .. Sunday = 6 (epoch day 0 is a
Thursday, as for the Unix epoch), as in `date.weekday()`. -/
def weekday (t : Nat) : Nat := (dateOf t + 3) % 7

/-- Python `(period_end - period_start).seconds`: the seconds component of
the timedelta, i.e. the difference modulo one day (floor convention). -/
def tdSeconds (startT stopT : Nat) : Int := ((stopT : Int) - (startT : Int)) % 86400

/-- One row of the usage CSV: `(period_start, period_end, usage)`. -/
structure UsageInterval where
  periodStart : Nat
  periodEnd : Nat
  usage : Rat
deriving DecidableEq

/-- The `Prices` record loaded from `prices.csv`; absent columns are `none`.
The `variable` component is named `variableRate` (`variable` is reserved). -/
structure Prices where
  name : String
  variableRate : Option Rat := none
  daily : Option Rat := none
  surcharge : Option Rat := none
  bonus : Option Rat := none
  offpeak : Option Rat := none
  night : Option Rat := none
deriving DecidableEq

/-- Behaviour variant of a plan: which subclass of `Plan` its name selected
(plans with unmatched names use the generic base class behaviour). -/
inductive PlanVariant where
  | generic
  | contactGoodCharge
  | contactGoodNights
  | electricKiwi
deriving DecidableEq

/-- A pricing plan: a price configuration plus the behaviour variant and the
`custom` flag set by the loader. -/
structure Plan where
  prices : Prices
  custom : Bool
  variant : PlanVariant
deriving DecidableEq

/-- Lookup of a tariff component that raises (an error value) when the
component is absent, as `self.prices['x']` / the `NotImplementedError`
branches do. -/
def getPrice (o : Option Rat) (msg : String) : Except String Rat :=
  match o with
  | some v => Except.ok v
  | none => Except.error msg

namespace ElectricKiwi

/-- Sum of the two half-hour charges of clock hour `n`:
`sum(half_hour_totals[n*2 : n*2+2])`. -/
def hourTotal (half_hour_totals : List Rat) (n : Nat) : Rat :=
  ((half_hour_totals.drop (n * 2)).take 2).sum

/-- Peak hours skipped by the free-hour scan: 7am-9am and 5pm-9pm. -/
def isPeakHour (n : Nat) : Bool := (7 ≤ n && n < 9) || (17 ≤ n && n < 21)

/-- One step of the loop tracking `(max_hour_value, max_hour)`. -/
def maxStep (half_hour_totals : List Rat) (acc : Rat × Nat) (n : Nat) : Rat × Nat :=
  if isPeakHour n then acc
  else if hourTotal half_hour_totals n > acc.1 then (hourTotal half_hour_totals n, n)
  else acc

/-- The `for n in range(24)` scan starting from `(0, 0)`. -/
def maxHour (half_hour_totals : List Rat) : Rat × Nat :=
  (List.range 24).foldl (maxStep half_hour_totals) (0, 0)

/-- `ElectricKiwi.daily_total`: on exactly 48 half-hour charges, drop the
selected free hour from the day's sum; otherwise plain sum. -/
def daily_total (half_hour_totals : List Rat) : Rat :=
  if half_hour_totals.length ≠ 48 then half_hour_totals.sum
  else (((List.range 24).filter (fun n => n ≠ (maxHour half_hour_totals).2)).map
          (hourTotal half_hour_totals)).sum

end ElectricKiwi

/-- `Plan.variable(date)`: the per-kWh rate at a timestamp, per variant.
The base class raises `NotImplementedError` when no `variable` price is
configured; the subclasses index `self.prices` directly (a `KeyError`). -/
def Plan.variablePrice (p : Plan) (date : Nat) : Except String Rat :=
  match p.variant with
  | .generic => getPrice p.prices.variableRate "No variable price set"
  | .contactGoodCharge =>
      if 7 * 3600 ≤ timeOf date ∧ timeOf date < 21 * 3600 then
        getPrice p.prices.variableRate "variable"
      else getPrice p.prices.offpeak "offpeak"
  | .contactGoodNights =>
      if 21 * 3600 ≤ timeOf date ∧ timeOf date ≤ 23 * 3600 + 59 * 60 then Except.ok 0
      else getPrice p.prices.variableRate "variable"
  | .electricKiwi =>
      if 5 ≤ weekday date then getPrice p.prices.offpeak "offpeak"
      else if (7 * 3600 ≤ timeOf date ∧ timeOf date < 9 * 3600) ∨
              (17 * 3600 ≤ timeOf date ∧ timeOf date < 21 * 3600) then
        getPrice p.prices.variableRate "variable"
      else getPrice p.prices.offpeak "offpeak"

/-- `Plan.daily(date)`: the fixed daily charge; raises when unset.  No
subclass overrides it; the date argument is ignored. -/
def Plan.dailyPrice (p : Plan) (_date : Nat) : Except String Rat :=
  getPrice p.prices.daily "No daily price set"

/-- `Plan.surcharge()`: configured surcharge or 0. -/
def Plan.surchargeRate (p : Plan) : Rat := p.prices.surcharge.getD 0

/-- `Plan.bonus()`: configured bonus or 0. -/
def Plan.bonusValue (p : Plan) : Rat := p.prices.bonus.getD 0

/-- `Plan.daily_total(half_hour_totals)`: the per-day aggregation rule; the
ElectricKiwi family overrides the default plain sum. -/
def Plan.daily_total (p : Plan) (half_hour_totals : List Rat) : Rat :=
  match p.variant with
  | .electricKiwi => ElectricKiwi.daily_total half_hour_totals
  | _ => half_hour_totals.sum

/-- `Plan.total(subtotal)`: the total-cost transform `subtotal * (1 + surcharge)`. -/
def Plan.total (p : Plan) (subtotal : Rat) : Rat := subtotal * (1 + p.surchargeRate)

/-- State of the per-plan aggregation loop:
`(total_cost, current_day, day_prices)`. -/
structure AggState where
  total_cost : Rat
  current_day : Option Nat
  day_prices : List Rat
deriving DecidableEq

/-- One iteration of the aggregation loop body (lines 393-408 of
`analyse.py`): skip intervals whose `timedelta.seconds` exceeds 3600,
initialise `current_day` on first use, price the interval, and either extend
the current day bucket or close the previous day. -/
def aggStep (p : Plan) (st : AggState) (row : UsageInterval) : Except String AggState :=
  if 3600 < tdSeconds row.periodStart row.periodEnd then Except.ok st
  else
    let cd := st.current_day.getD (dateOf row.periodStart)
    match p.variablePrice row.periodStart with
    | .error e => .error e
    | .ok price =>
      let charge := price * row.usage
      if dateOf row.periodStart = cd then
        .ok ⟨st.total_cost, some cd, st.day_prices ++ [charge]⟩
      else
        match p.dailyPrice row.periodEnd with
        | .error e => .error e
        | .ok d =>
          .ok ⟨st.total_cost + p.daily_total st.day_prices + d,
               some (dateOf row.periodStart), [charge]⟩

/-- The aggregation loop over the usage rows, aborting on the first raised
error (the surrounding `try`). -/
def aggLoop (p : Plan) : AggState → List UsageInterval → Except String AggState
  | st, [] => .ok st
  | st, row :: rows =>
    match aggStep p st row with
    | .error e => .error e
    | .ok st' => aggLoop p st' rows

/-- Run the aggregation loop from a given state and close the final day:
`total_cost += plan.daily_total(day_prices) + plan.daily(period_start)`. -/
def runFrom (p : Plan) (st : AggState) (rows : List UsageInterval) (lastStart : Nat) :
    Except String Rat :=
  match aggLoop p st rows with
  | .error e => .error e
  | .ok stF =>
    match p.dailyPrice lastStart with
    | .error e => .error e
    | .ok d => .ok (stF.total_cost + p.daily_total stF.day_prices + d)

/-- The whole per-plan aggregation (lines 389-411 of `analyse.py`): loop from
the empty state, then close the final day using the last row's
`period_start` (the loop variable's final value). -/
def aggregate (p : Plan) (rows : List UsageInterval) : Except String Rat :=
  runFrom p ⟨0, none, []⟩ rows ((rows.getLast?.map (fun r => r.periodStart)).getD 0)

/-- One entry of `results`: the tuple
`(period_cost, year_cost, plan.prices['name'], plan.custom)`. -/
structure EvalResult where
  period_cost : Rat
  year_cost : Rat
  name : String
  custom : Bool
deriving DecidableEq

/-- `TOTAL_TIME_PERIOD`: seconds in the fixed 365-day year. -/
def TOTAL_TIME_PERIOD : Nat := 31536000

/-- Evaluation of one plan (lines 389-420 of `analyse.py`): aggregate, apply
the total transform, annualize by `scalar = TOTAL_TIME_PERIOD / total_time`,
subtract the bonus (in cents), and rescale back to the observed period. -/
def evalPlan (p : Plan) (usage_data : List UsageInterval) (total_time : Nat) :
    Except String EvalResult :=
  match aggregate p usage_data with
  | .error e => .error e
  | .ok total_cost =>
    let subtotal := p.total total_cost
    let scalar : Rat := (TOTAL_TIME_PERIOD : Rat) / (total_time : Rat)
    let bonus := p.bonusValue * 100
    let year_cost := subtotal * scalar - bonus
    let period_cost := year_cost / scalar
    .ok ⟨period_cost, year_cost, p.prices.name, p.custom⟩

/-- The `for plan in plans` batch: append the result of each successful
evaluation; a raised exception is caught and the plan is skipped. -/
def evaluatePlans (plans : List Plan) (usage_data : List UsageInterval) (total_time : Nat) :
    List EvalResult :=
  plans.foldl
    (fun results p =>
      match evalPlan p usage_data total_time with
      | .ok r => results ++ [r]
      | .error _ => results) []

/-- Lexicographic strict comparison of lists of naturals (Python `<` on
sequences). -/
def natListLt : List Nat → List Nat → Bool
  | _, [] => false
  | [], _ :: _ => true
  | a :: as, b :: bs =>
    if a < b then true
    else if b < a then false
    else natListLt as bs

/-- Python string `<`: lexicographic comparison by code point. -/
def strLt (a b : String) : Bool :=
  natListLt (a.data.map Char.toNat) (b.data.map Char.toNat)

/-- Python `<=` on the result tuples
`(period_cost, year_cost, name, custom)`; `False < True` for the flag. -/
def resultLE (a b : EvalResult) : Bool :=
  if a.period_cost < b.period_cost then true
  else if b.period_cost < a.period_cost then false
  else if a.year_cost < b.year_cost then true
  else if b.year_cost < a.year_cost then false
  else if strLt a.name b.name then true
  else if strLt b.name a.name then false
  else !a.custom || b.custom

/-- `results.sort()`: stable sort of the result tuples by Python tuple
comparison. -/
def sortResults (rs : List EvalResult) : List EvalResult :=
  rs.mergeSort resultLE

/-- An interval the aggregation loop keeps (its `timedelta.seconds` is at
most 3600). -/
def keptRow (r : UsageInterval) : Bool :=
  !(decide (3600 < tdSeconds r.periodStart r.periodEnd))

/-- An interval that is non-anomalous in the sense of the specification: its
actual duration is at most one hour. -/
def nonAnomalous (r : UsageInterval) : Bool :=
  decide (r.periodEnd ≤ r.periodStart + 3600)

/-- Total variable charge of the kept rows under a pricing function `vp`. -/
def chargeSum (vp : Nat → Rat) (rows : List UsageInterval) : Rat :=
  ((rows.filter keptRow).map (fun r => vp r.periodStart * r.usage)).sum

/-- Calendar dates of the kept rows, in stream order. -/
def keptDates (rows : List UsageInterval) : List Nat :=
  (rows.filter keptRow).map (fun r => dateOf r.periodStart)

/-- Number of distinct calendar dates among the kept rows. -/
def distinctDayCount (rows : List UsageInterval) : Nat :=
  (keptDates rows).dedup.length

/-! ### Helper lemmas about the aggregation loop -/

lemma dailyPrice_eq (p : Plan) (d : Rat) (hd : p.prices.daily = some d) (t : Nat) :
    p.dailyPrice t = .ok d := by
  simp [Plan.dailyPrice, getPrice, hd]

lemma daily_total_nil (p : Plan) : p.daily_total [] = 0 := by
  cases hv : p.variant <;> simp [Plan.daily_total, hv, ElectricKiwi.daily_total]

/-- Counting distinct values: prepending `a` and discarding later copies of
`a` splits the distinct count. -/
lemma dedup_cons_length (a : Nat) (ds : List Nat) :
    ((a :: ds).dedup).length =
      1 + ((ds.filter (fun x => decide (x ≠ a))).dedup).length := by
  have h1 : ((a :: ds).dedup).length = (a :: ds).toFinset.card :=
    (List.card_toFinset _).symm
  have h2 : ((ds.filter (fun x => decide (x ≠ a))).dedup).length =
      (ds.toFinset.erase a).card := by
    rw [← List.card_toFinset, List.toFinset_filter]
    congr 1
    rw [← Finset.filter_ne' ds.toFinset a]
    apply Finset.filter_congr
    intro x _
    simp
  have h3 : (a :: ds).toFinset = insert a (ds.toFinset.erase a) := by
    ext x
    simp [List.mem_toFinset, Finset.mem_insert, Finset.mem_erase]
    constructor
    · rintro (rfl | hx)
      · exact Or.inl rfl
      · by_cases hxa : x = a
        · exact Or.inl hxa
        · exact Or.inr ⟨hxa, hx⟩
    · rintro (rfl | ⟨_, hx⟩)
      · exact Or.inl rfl
      · exact Or.inr hx
  rw [h1, h3, Finset.card_insert_of_not_mem (Finset.not_mem_erase a _), h2]
  omega

lemma keptRow_iff (r : UsageInterval) :
    keptRow r = true ↔ ¬ 3600 < tdSeconds r.periodStart r.periodEnd := by
  simp [keptRow]

lemma aggStep_skipped (p : Plan) (st : AggState) (r : UsageInterval)
    (h : 3600 < tdSeconds r.periodStart r.periodEnd) :
    aggStep p st r = .ok st := by
  simp [aggStep, h]

lemma aggStep_same_day (p : Plan) (st : AggState) (r : UsageInterval) (v : Rat)
    (h : ¬ 3600 < tdSeconds r.periodStart r.periodEnd)
    (hv : p.variablePrice r.periodStart = .ok v)
    (hday : dateOf r.periodStart = st.current_day.getD (dateOf r.periodStart)) :
    aggStep p st r =
      .ok ⟨st.total_cost, some (st.current_day.getD (dateOf r.periodStart)),
           st.day_prices ++ [v * r.usage]⟩ := by
  simp [aggStep, h, hv, ← hday]

lemma aggStep_new_day (p : Plan) (st : AggState) (r : UsageInterval) (v d : Rat)
    (h : ¬ 3600 < tdSeconds r.periodStart r.periodEnd)
    (hv : p.variablePrice r.periodStart = .ok v)
    (hd : p.prices.daily = some d)
    (hday : dateOf r.periodStart ≠ st.current_day.getD (dateOf r.periodStart)) :
    aggStep p st r =
      .ok ⟨st.total_cost + p.daily_total st.day_prices + d,
           some (dateOf r.periodStart), [v * r.usage]⟩ := by
  simp [aggStep, h, hv, hday, dailyPrice_eq p d hd]

lemma runFrom_cons (p : Plan) (st st' : AggState) (r : UsageInterval)
    (l : List UsageInterval) (x : Nat) (h : aggStep p st r = .ok st') :
    runFrom p st (r :: l) x = runFrom p st' l x := by
  simp [runFrom, aggLoop, h]

lemma dateOf_mono {a b : Nat} (h : a ≤ b) : dateOf a ≤ dateOf b :=
  Nat.div_le_div_right h

/-- Closed form of the loop from a state with an open current day `c`:
every kept row at date `c` joins the open bucket, every later date closes a
day, and the final close adds one more daily charge. -/
lemma runFrom_some (p : Plan) (vp : Nat → Rat) (d : Rat)
    (hvp : ∀ t, p.variablePrice t = .ok (vp t))
    (hd : p.prices.daily = some d)
    (hdt : ∀ l, p.daily_total l = l.sum) :
    ∀ (l : List UsageInterval) (c : Nat) (tc : Rat) (dp : List Rat) (x : Nat),
      (∀ r ∈ l, keptRow r = true → c ≤ dateOf r.periodStart) →
      l.Pairwise (fun a b => a.periodStart ≤ b.periodStart) →
      runFrom p ⟨tc, some c, dp⟩ l x =
        .ok (tc + dp.sum + chargeSum vp l +
             d * (1 + ((((keptDates l).filter (fun y => decide (y ≠ c))).dedup.length : Nat) : Rat))) := by
  intro l
  induction l with
  | nil =>
    intro c tc dp x _ _
    simp [runFrom, aggLoop, dailyPrice_eq p d hd, hdt, chargeSum, keptDates]
  | cons r l ih =>
    intro c tc dp x hcle hsort
    obtain ⟨hhead, htail⟩ := List.pairwise_cons.mp hsort
    by_cases hskip : 3600 < tdSeconds r.periodStart r.periodEnd
    · rw [runFrom_cons p _ _ r l x (aggStep_skipped p _ r hskip)]
      rw [ih c tc dp x (fun r' hr' => hcle r' (List.mem_cons_of_mem r hr')) htail]
      have hk : keptRow r = false := by simp [keptRow, hskip]
      simp [chargeSum, keptDates, List.filter_cons, hk]
    · have hkept : keptRow r = true := by simp [keptRow, hskip]
      by_cases hday : dateOf r.periodStart = c
      · have hstep := aggStep_same_day p ⟨tc, some c, dp⟩ r (vp r.periodStart) hskip
          (hvp r.periodStart) (by simpa using hday)
        rw [runFrom_cons p _ _ r l x (by simpa using hstep)]
        rw [ih c tc (dp ++ [vp r.periodStart * r.usage]) x
          (fun r' hr' => hcle r' (List.mem_cons_of_mem r hr')) htail]
        have hdates : keptDates (r :: l) = c :: keptDates l := by
          simp [keptDates, List.filter_cons, hkept, hday]
        have hcharge : chargeSum vp (r :: l) =
            vp r.periodStart * r.usage + chargeSum vp l := by
          simp [chargeSum, List.filter_cons, hkept]
        rw [hdates, hcharge]
        simp [List.filter_cons, List.sum_append]
        ring_nf
      · have hlt : c < dateOf r.periodStart :=
          lt_of_le_of_ne (hcle r (List.mem_cons_self r l) hkept) (Ne.symm hday)
        have hstep := aggStep_new_day p ⟨tc, some c, dp⟩ r (vp r.periodStart) d hskip
          (hvp r.periodStart) hd (by simpa using hday)
        rw [runFrom_cons p _ _ r l x (by simpa using hstep)]
        have hcle' : ∀ r' ∈ l, keptRow r' = true →
            dateOf r.periodStart ≤ dateOf r'.periodStart :=
          fun r' hr' _ => dateOf_mono (hhead r' hr')
        rw [ih (dateOf r.periodStart) (tc + p.daily_total dp + d)
          [vp r.periodStart * r.usage] x hcle' htail]
        have hallbig : ∀ y ∈ keptDates l, dateOf r.periodStart ≤ y := by
          intro y hy
          simp only [keptDates, List.mem_map, List.mem_filter] at hy
          obtain ⟨r', ⟨hr'l, hr'k⟩, rfl⟩ := hy
          exact hcle' r' hr'l hr'k
        have hdates : keptDates (r :: l) = dateOf r.periodStart :: keptDates l := by
          simp [keptDates, List.filter_cons, hkept]
        have hfilterc : (keptDates l).filter (fun y => decide (y ≠ c)) = keptDates l := by
          apply List.filter_eq_self.mpr
          intro y hy
          have := hallbig y hy
          simp only [decide_eq_true_eq]
          omega
        have hcount : (((keptDates (r :: l)).filter (fun y => decide (y ≠ c))).dedup.length : Nat) =
            1 + (((keptDates l).filter
              (fun y => decide (y ≠ dateOf r.periodStart))).dedup.length : Nat) := by
          rw [hdates, List.filter_cons]
          have : (decide (dateOf r.periodStart ≠ c)) = true := by
            simp only [decide_eq_true_eq]
            omega
          rw [this]
          simp only [if_true, hfilterc]
          exact dedup_cons_length (dateOf r.periodStart) (keptDates l)
        have hcharge : chargeSum vp (r :: l) =
            vp r.periodStart * r.usage + chargeSum vp l := by
          simp [chargeSum, List.filter_cons, hkept]
        rw [hcount, hcharge, hdt]
        push_cast
        simp only [List.sum_singleton]
        ring_nf

/-- Closed form of the whole loop from the initial state: one daily charge
per distinct kept date, but at least one because the final day is always
closed. -/
lemma runFrom_none (p : Plan) (vp : Nat → Rat) (d : Rat)
    (hvp : ∀ t, p.variablePrice t = .ok (vp t))
    (hd : p.prices.daily = some d)
    (hdt : ∀ l, p.daily_total l = l.sum) :
    ∀ (l : List UsageInterval) (tc : Rat) (x : Nat),
      l.Pairwise (fun a b => a.periodStart ≤ b.periodStart) →
      runFrom p ⟨tc, none, []⟩ l x =
        .ok (tc + chargeSum vp l + d * ((max 1 (distinctDayCount l) : Nat) : Rat)) := by
  intro l
  induction l with
  | nil =>
    intro tc x _
    simp [runFrom, aggLoop, dailyPrice_eq p d hd, hdt, chargeSum, distinctDayCount, keptDates]
  | cons r l ih =>
    intro tc x hsort
    obtain ⟨hhead, htail⟩ := List.pairwise_cons.mp hsort
    by_cases hskip : 3600 < tdSeconds r.periodStart r.periodEnd
    · rw [runFrom_cons p _ _ r l x (aggStep_skipped p _ r hskip)]
      rw [ih tc x htail]
      have hk : keptRow r = false := by simp [keptRow, hskip]
      simp [chargeSum, distinctDayCount, keptDates, List.filter_cons, hk]
    · have hkept : keptRow r = true := by simp [keptRow, hskip]
      have hstep := aggStep_same_day p ⟨tc, none, []⟩ r (vp r.periodStart) hskip
        (hvp r.periodStart) (by simp)
      rw [runFrom_cons p _ _ r l x (by simpa using hstep)]
      have hcle : ∀ r' ∈ l, keptRow r' = true →
          dateOf r.periodStart ≤ dateOf r'.periodStart :=
        fun r' hr' _ => dateOf_mono (hhead r' hr')
      rw [runFrom_some p vp d hvp hd hdt l (dateOf r.periodStart) tc
        [vp r.periodStart * r.usage] x hcle htail]
      have hdates : keptDates (r :: l) = dateOf r.periodStart :: keptDates l := by
        simp [keptDates, List.filter_cons, hkept]
      have hcount : distinctDayCount (r :: l) =
          1 + ((keptDates l).filter
            (fun y => decide (y ≠ dateOf r.periodStart))).dedup.length := by
        rw [distinctDayCount, hdates]
        exact dedup_cons_length (dateOf r.periodStart) (keptDates l)
      have hmax : (max 1 (distinctDayCount (r :: l)) : Nat) = distinctDayCount (r :: l) := by
        omega
      have hcharge : chargeSum vp (r :: l) =
          vp r.periodStart * r.usage + chargeSum vp l := by
        simp [chargeSum, List.filter_cons, hkept]
      rw [hmax, hcount, hcharge]
      push_cast
      simp only [List.sum_singleton]
      ring_nf

/-- Under the well-formedness bounds (positive duration below one day) the
loop's `timedelta.seconds` filter coincides with the specification's
duration anomaly test. -/
lemma keptRow_eq_nonAnomalous (r : UsageInterval)
    (h1 : r.periodStart < r.periodEnd) (h2 : r.periodEnd < r.periodStart + 86400) :
    keptRow r = nonAnomalous r := by
  have hts : tdSeconds r.periodStart r.periodEnd =
      (r.periodEnd : Int) - (r.periodStart : Int) := by
    apply Int.emod_eq_of_lt
    · omega
    · omega
  by_cases h : r.periodEnd ≤ r.periodStart + 3600
  · have h' : ¬ (3600 : Int) < (r.periodEnd : Int) - (r.periodStart : Int) := by
      omega
    simp [keptRow, nonAnomalous, hts, h, h']
  · have h' : (3600 : Int) < (r.periodEnd : Int) - (r.periodStart : Int) := by
      omega
    simp [keptRow, nonAnomalous, hts, h, h']

/-- Total variable charge of the non-anomalous rows (specification side). -/
def specChargeSum (vp : Nat → Rat) (rows : List UsageInterval) : Rat :=
  ((rows.filter nonAnomalous).map (fun r => vp r.periodStart * r.usage)).sum

/-- Number of distinct calendar dates among the non-anomalous rows. -/
def specDayCount (rows : List UsageInterval) : Nat :=
  ((rows.filter nonAnomalous).map (fun r => dateOf r.periodStart)).dedup.length

/-- Number of distinct calendar dates over the whole stream, anomalous rows
included. -/
def streamDayCount (rows : List UsageInterval) : Nat :=
  (rows.map (fun r => dateOf r.periodStart)).dedup.length

/-- A flat-rate plan fixture: `variable = 20`, `daily = 200`, nothing else. -/
def planFlat : Plan :=
  ⟨⟨"GenericPlan", some 20, some 200, none, none, none, none⟩, false, .generic⟩

/-- C1 (amended): for a start-time-ordered stream of well-formed intervals
(positive duration under one day) with at least one non-anomalous interval,
on a plan with the default daily aggregation, a total variable-price
function and a configured daily price, the aggregated total is the daily
price once per distinct calendar date among the non-anomalous intervals
plus the sum of their variable charges. -/
theorem aggregate_total_formula (p : Plan) (vp : Nat → Rat) (d : Rat)
    (rows : List UsageInterval)
    (hvp : ∀ t, p.variablePrice t = .ok (vp t))
    (hd : p.prices.daily = some d)
    (hdt : ∀ l, p.daily_total l = l.sum)
    (hsort : rows.Pairwise (fun a b => a.periodStart ≤ b.periodStart))
    (hwf : ∀ r ∈ rows, r.periodStart < r.periodEnd ∧ r.periodEnd < r.periodStart + 86400)
    (hsome : ∃ r ∈ rows, nonAnomalous r = true) :
    aggregate p rows = .ok (specChargeSum vp rows + d * ((specDayCount rows : Nat) : Rat)) := by
  have hfe : rows.filter keptRow = rows.filter nonAnomalous :=
    List.filter_congr (fun r hr => keptRow_eq_nonAnomalous r (hwf r hr).1 (hwf r hr).2)
  have hcs : chargeSum vp rows = specChargeSum vp rows := by
    simp [chargeSum, specChargeSum, hfe]
  have hdc : distinctDayCount rows = specDayCount rows := by
    simp [distinctDayCount, keptDates, specDayCount, hfe]
  have hpos : 0 < distinctDayCount rows := by
    obtain ⟨r, hr, hna⟩ := hsome
    have hk : keptRow r = true := by
      rw [keptRow_eq_nonAnomalous r (hwf r hr).1 (hwf r hr).2]
      exact hna
    have hmem : dateOf r.periodStart ∈ keptDates rows := by
      simp only [keptDates, List.mem_map, List.mem_filter]
      exact ⟨r, ⟨hr, hk⟩, rfl⟩
    have : keptDates rows ≠ [] := by
      intro hnil
      rw [hnil] at hmem
      exact absurd hmem (List.not_mem_nil _)
    have : (keptDates rows).dedup ≠ [] := by
      simpa [List.dedup_eq_nil]
    simpa [distinctDayCount, List.length_pos]
  have hmax : (max 1 (distinctDayCount rows) : Nat) = distinctDayCount rows := by
    omega
  rw [aggregate, runFrom_none p vp d hvp hd hdt rows 0
    ((rows.getLast?.map (fun r => r.periodStart)).getD 0) hsort, hmax, hcs, hdc]
  norm_num

/-- C9: when every interval of a non-empty stream is excluded by the
duration anomaly filter, the loop's state never changes, but the final day
is still closed, so the total is exactly one fixed daily charge. -/
theorem aggregate_all_filtered (p : Plan) (d : Rat) (rows : List UsageInterval)
    (_hne : rows ≠ [])
    (hall : ∀ r ∈ rows, keptRow r = false)
    (hd : p.prices.daily = some d) :
    aggregate p rows = .ok d := by
  have hloop : ∀ (l : List UsageInterval) (st : AggState),
      (∀ r ∈ l, keptRow r = false) → aggLoop p st l = .ok st := by
    intro l
    induction l with
    | nil => intro st _; rfl
    | cons r l ih =>
      intro st hall'
      have hskip : 3600 < tdSeconds r.periodStart r.periodEnd := by
        have := hall' r (List.mem_cons_self r l)
        simpa [keptRow] using this
      simp only [aggLoop, aggStep_skipped p st r hskip]
      exact ih st (fun r' h => hall' r' (List.mem_cons_of_mem r h))
  have hclean := hloop rows ⟨0, none, []⟩ hall
  simp [aggregate, runFrom, hclean, dailyPrice_eq p d hd, daily_total_nil]

/-- C9 witness: one two-hour interval; its date is never observed by the
aggregation, yet the daily charge of 200 is collected once. -/
theorem aggregate_all_filtered_witness :
    aggregate planFlat [⟨0, 7200, 1⟩] = .ok 200 := by
  apply aggregate_all_filtered planFlat 200 [⟨0, 7200, 1⟩]
  · simp
  · intro r hr
    simp only [List.mem_singleton] at hr
    subst hr
    decide
  · rfl

/-- C2: evaluation of the failing input.  The filter tests
`timedelta.seconds`, the seconds component of the duration, so the 25-hour
interval `(1800, 91800)` — duration 90000 s, seconds component 3600 —
passes the filter and changes the aggregated total from 220 to 240. -/
theorem anomaly_filter_seconds_component :
    aggregate planFlat [⟨0, 1800, 1⟩] = .ok 220 ∧
    aggregate planFlat [⟨0, 1800, 1⟩, ⟨1800, 91800, 1⟩] = .ok 240 ∧
    91800 - 1800 = 90000 ∧ 3600 < 90000 := by
  refine ⟨?_, ?_, by norm_num, by norm_num⟩
  · norm_num [aggregate, runFrom, aggLoop, aggStep, tdSeconds, dateOf, secondsPerDay,
      Plan.variablePrice, Plan.dailyPrice, Plan.daily_total, getPrice, planFlat]
  · norm_num [aggregate, runFrom, aggLoop, aggStep, tdSeconds, dateOf, secondsPerDay,
      Plan.variablePrice, Plan.dailyPrice, Plan.daily_total, getPrice, planFlat]

/-- C1 counterexample: a kept interval on day 0 followed by an anomalous
(two-hour) interval on day 1.  Two distinct calendar dates are observed in
the stream, but the code charges the fixed daily price only once (220, not
the claimed 20 + 200 * 2 = 420): anomalous rows never open a day bucket. -/
theorem aggregate_stream_dates_counterexample :
    aggregate planFlat [⟨0, 1800, 1⟩, ⟨86400, 93600, 1⟩] = .ok 220 ∧
    specChargeSum (fun _ => 20) [⟨0, 1800, 1⟩, ⟨86400, 93600, 1⟩] +
      200 * ((streamDayCount [⟨0, 1800, 1⟩, ⟨86400, 93600, 1⟩] : Nat) : Rat) = 420 ∧
    (220 : Rat) ≠ 420 := by
  refine ⟨?_, ?_, by norm_num⟩
  · norm_num [aggregate, runFrom, aggLoop, aggStep, tdSeconds, dateOf, secondsPerDay,
      Plan.variablePrice, Plan.dailyPrice, Plan.daily_total, getPrice, planFlat]
  · norm_num [specChargeSum, streamDayCount, nonAnomalous, dateOf, secondsPerDay,
      List.dedup_cons_of_not_mem, List.filter_cons]

/-- C1 witness: two kept half-hour intervals on two distinct days under the
flat plan give 20 + 20 in variable charges plus two daily charges of 200. -/
theorem aggregate_total_formula_witness :
    aggregate planFlat [⟨0, 1800, 1⟩, ⟨86400, 88200, 1⟩] = .ok 440 := by
  have h := aggregate_total_formula planFlat (fun _ => 20) 200
    [⟨0, 1800, 1⟩, ⟨86400, 88200, 1⟩]
    (fun t => rfl) rfl (fun l => rfl)
    (by simp [List.pairwise_cons])
    (by decide)
    (by decide)
  rw [h]
  norm_num [specChargeSum, specDayCount, nonAnomalous, dateOf, secondsPerDay,
    List.filter_cons, List.dedup_cons_of_not_mem]

/-- C5: with no configured surcharge (and no bonus) the total-cost transform
is the identity. -/
theorem total_identity_no_surcharge (p : Plan) (x : Rat)
    (hs : p.prices.surcharge = none) (_hb : p.prices.bonus = none) :
    p.total x = x := by
  simp [Plan.total, Plan.surchargeRate, hs]

/-- C5 witness: the flat fixture has no surcharge and no bonus. -/
theorem total_identity_no_surcharge_witness : planFlat.total 7 = 7 :=
  total_identity_no_surcharge planFlat 7 rfl rfl

/-- C6: annualization uses `scalar = 31536000 / total_time`,
`year_cost = totalTransform(total) * scalar - bonus * 100` and
`period_cost = year_cost / scalar`; one observed day gives `scalar = 365`. -/
theorem evalPlan_annualization (p : Plan) (u : List UsageInterval) (t : Nat) (T : Rat)
    (hagg : aggregate p u = .ok T) (_ht : 0 < t) :
    evalPlan p u t =
      .ok ⟨(p.total T * ((TOTAL_TIME_PERIOD : Rat) / (t : Rat)) - p.bonusValue * 100) /
             ((TOTAL_TIME_PERIOD : Rat) / (t : Rat)),
           p.total T * ((TOTAL_TIME_PERIOD : Rat) / (t : Rat)) - p.bonusValue * 100,
           p.prices.name, p.custom⟩ ∧
    (t = 86400 → ((TOTAL_TIME_PERIOD : Rat) / (t : Rat)) = 365) := by
  constructor
  · simp [evalPlan, hagg]
  · rintro rfl
    norm_num [TOTAL_TIME_PERIOD]

/-- C6 witness: an empty stream on the flat plan aggregates to the single
daily charge 200; over one observed day the scalar is 365, the annualized
cost 73000 and the period cost 200 again. -/
theorem evalPlan_annualization_witness :
    evalPlan planFlat [] 86400 = .ok ⟨200, 73000, "GenericPlan", false⟩ := by
  have h := evalPlan_annualization planFlat [] 86400 200
    (by norm_num [aggregate, runFrom, aggLoop, Plan.dailyPrice, Plan.daily_total,
      getPrice, planFlat]) (by norm_num)
  rw [h.1]
  norm_num [planFlat, Plan.total, Plan.surchargeRate, Plan.bonusValue, TOTAL_TIME_PERIOD]

/-- C8: for the `[07:00, 21:00)` peak window plan, 06:59:59 prices off-peak
and exactly 07:00:00 prices peak — the boundary belongs to the later
window. -/
theorem contactGoodCharge_boundary (p : Plan) (v o : Rat) (t1 t2 : Nat)
    (hvar : p.variant = .contactGoodCharge)
    (hv : p.prices.variableRate = some v) (ho : p.prices.offpeak = some o)
    (h1 : timeOf t1 = 6 * 3600 + 59 * 60 + 59) (h2 : timeOf t2 = 7 * 3600) :
    p.variablePrice t1 = .ok o ∧ p.variablePrice t2 = .ok v := by
  constructor
  · have hc : ¬ (7 * 3600 ≤ timeOf t1 ∧ timeOf t1 < 21 * 3600) := by omega
    simp [Plan.variablePrice, hvar, hc, getPrice, ho]
  · have hc : 7 * 3600 ≤ timeOf t2 ∧ timeOf t2 < 21 * 3600 := by omega
    simp [Plan.variablePrice, hvar, hc, getPrice, hv]

/-- Fixture for the two Contact plans with custom windows. -/
def planGoodCharge : Plan :=
  ⟨⟨"ContactGoodCharge", some 25, none, none, none, some 15, none⟩, true, .contactGoodCharge⟩

/-- C8 witness: at 06:59:59 the rate is the off-peak 15; at 07:00:00 the
peak 25. -/
theorem contactGoodCharge_boundary_witness :
    planGoodCharge.variablePrice 25199 = .ok 15 ∧
    planGoodCharge.variablePrice 25200 = .ok 25 :=
  contactGoodCharge_boundary planGoodCharge 25 15 25199 25200 rfl rfl rfl
    (by norm_num [timeOf, secondsPerDay]) (by norm_num [timeOf, secondsPerDay])

/-- C10: the nightly free window is the closed interval
`[21:00:00, 23:59:00]`; any time strictly between 23:59:00 and midnight is
charged the configured variable rate, not zero. -/
theorem contactGoodNights_free_window (p : Plan) (v : Rat)
    (hvar : p.variant = .contactGoodNights)
    (hv : p.prices.variableRate = some v) :
    (∀ t, 23 * 3600 + 59 * 60 < timeOf t → p.variablePrice t = .ok v) ∧
    (∀ t, 21 * 3600 ≤ timeOf t → timeOf t ≤ 23 * 3600 + 59 * 60 →
      p.variablePrice t = .ok 0) := by
  constructor
  · intro t ht
    have hc : ¬ (21 * 3600 ≤ timeOf t ∧ timeOf t ≤ 23 * 3600 + 59 * 60) := by omega
    simp [Plan.variablePrice, hvar, hc, getPrice, hv]
  · intro t h1 h2
    have hc : 21 * 3600 ≤ timeOf t ∧ timeOf t ≤ 23 * 3600 + 59 * 60 := ⟨h1, h2⟩
    simp [Plan.variablePrice, hvar, hc]

/-- Fixture for the nightly-free-window plan. -/
def planGoodNights : Plan :=
  ⟨⟨"ContactGoodNights", some 30, none, none, none, none, none⟩, true, .contactGoodNights⟩

/-- C10 witness: 23:59:30 is charged the variable 30, while 23:59:00 is
still free. -/
theorem contactGoodNights_free_window_witness :
    planGoodNights.variablePrice 86370 = .ok 30 ∧
    planGoodNights.variablePrice 86340 = .ok 0 :=
  ⟨(contactGoodNights_free_window planGoodNights 30 rfl rfl).1 86370
      (by norm_num [timeOf, secondsPerDay]),
   (contactGoodNights_free_window planGoodNights 30 rfl rfl).2 86340
      (by norm_num [timeOf, secondsPerDay]) (by norm_num [timeOf, secondsPerDay])⟩

/-- C7: a plan whose evaluation raises is skipped by the `except` handler:
it contributes no result, every other plan is evaluated exactly as if the
failing plan were absent, and the final ranking is unchanged. -/
theorem evalPlan_error_excluded (ps1 ps2 : List Plan) (bad : Plan)
    (u : List UsageInterval) (t : Nat) (e : String)
    (hbad : evalPlan bad u t = .error e) :
    evaluatePlans (ps1 ++ bad :: ps2) u t = evaluatePlans (ps1 ++ ps2) u t ∧
    sortResults (evaluatePlans (ps1 ++ bad :: ps2) u t) =
      sortResults (evaluatePlans (ps1 ++ ps2) u t) := by
  have key : evaluatePlans (ps1 ++ bad :: ps2) u t = evaluatePlans (ps1 ++ ps2) u t := by
    simp only [evaluatePlans, List.foldl_append, List.foldl_cons, hbad]
  exact ⟨key, congrArg sortResults key⟩

/-- A broken fixture: no `variable` rate configured, so pricing any kept
interval raises. -/
def planBroken : Plan :=
  ⟨⟨"Broken", none, some 100, none, none, none, none⟩, false, .generic⟩

/-- C7 witness: with one kept interval, the broken plan raises and drops
out while the flat plan's result is unaffected. -/
theorem evalPlan_error_excluded_witness :
    evaluatePlans [planBroken, planFlat] [⟨0, 1800, 1⟩] 86400 =
      evaluatePlans [planFlat] [⟨0, 1800, 1⟩] 86400 := by
  have h := evalPlan_error_excluded [] [planFlat] planBroken [⟨0, 1800, 1⟩] 86400
    "No variable price set"
    (by norm_num [evalPlan, aggregate, runFrom, aggLoop, aggStep, tdSeconds, dateOf,
      secondsPerDay, Plan.variablePrice, Plan.dailyPrice, getPrice, planBroken])
  exact h.1

/-! ### Order properties of the result-tuple comparison -/

lemma natListLt_trans : ∀ (x y z : List Nat),
    natListLt x y = true → natListLt y z = true → natListLt x z = true := by
  intro x
  induction x with
  | nil =>
    intro y z hxy hyz
    cases y with
    | nil => simp [natListLt] at hxy
    | cons b bs =>
      cases z with
      | nil => simp [natListLt] at hyz
      | cons c cs => simp [natListLt]
  | cons a as ih =>
    intro y z hxy hyz
    cases y with
    | nil => simp [natListLt] at hxy
    | cons b bs =>
      cases z with
      | nil => simp [natListLt] at hyz
      | cons c cs =>
        simp only [natListLt] at hxy hyz ⊢
        split_ifs at hxy hyz ⊢ <;>
          first
          | rfl
          | (exact Bool.noConfusion hxy)
          | (exact Bool.noConfusion hyz)
          | (exact ih bs cs hxy hyz)
          | omega

lemma natListLt_eq_of_not : ∀ (x y : List Nat),
    natListLt x y = false → natListLt y x = false → x = y := by
  intro x
  induction x with
  | nil =>
    intro y h1 _
    cases y with
    | nil => rfl
    | cons b bs => simp [natListLt] at h1
  | cons a as ih =>
    intro y h1 h2
    cases y with
    | nil => simp [natListLt] at h2
    | cons b bs =>
      simp only [natListLt] at h1 h2
      split_ifs at h1 h2
      have hab : a = b := by omega
      rw [hab, ih bs h1 h2]

/-- One level of Python tuple comparison is transitive, given transitivity
of the remainder. -/
lemma lexStep_trans {x y z : Rat} {r1 r2 r3 : Bool}
    (hr : r1 = true → r2 = true → r3 = true)
    (h1 : (if x < y then true else if y < x then false else r1) = true)
    (h2 : (if y < z then true else if z < y then false else r2) = true) :
    (if x < z then true else if z < x then false else r3) = true := by
  rcases lt_trichotomy x y with hxy | hxy | hxy
  · have hzy : ¬ z < y := by
      intro hc
      rw [if_neg (asymm hc), if_pos hc] at h2
      exact Bool.noConfusion h2
    have hxz : x < z := lt_of_lt_of_le hxy (not_lt.mp hzy)
    rw [if_pos hxz]
  · subst hxy
    rw [if_neg (lt_irrefl x), if_neg (lt_irrefl x)] at h1
    rcases lt_trichotomy x z with hxz | hxz | hxz
    · rw [if_pos hxz]
    · subst hxz
      rw [if_neg (lt_irrefl x), if_neg (lt_irrefl x)] at h2 ⊢
      exact hr h1 h2
    · rw [if_neg (asymm hxz), if_pos hxz] at h2
      exact Bool.noConfusion h2
  · rw [if_neg (asymm hxy), if_pos hxy] at h1
    exact Bool.noConfusion h1

/-- One level of Python tuple comparison is total, given totality of the
remainder. -/
lemma lexStep_total {x y : Rat} {r1 r2 : Bool} (hr : (r1 || r2) = true) :
    ((if x < y then true else if y < x then false else r1) ||
     (if y < x then true else if x < y then false else r2)) = true := by
  rcases lt_trichotomy x y with h | h | h
  · rw [if_pos h]
    rfl
  · subst h
    rw [if_neg (lt_irrefl x), if_neg (lt_irrefl x), if_neg (lt_irrefl x),
      if_neg (lt_irrefl x)]
    exact hr
  · rw [if_neg (asymm h), if_pos h, if_pos h]
    rfl

/-- The name/custom tail of the tuple comparison, as a function of the
code-point list of the name. -/
lemma nameCustom_trans {ka kb kc : List Nat} {ca cb cc : Bool}
    (h1 : (if natListLt ka kb then true else if natListLt kb ka then false
           else !ca || cb) = true)
    (h2 : (if natListLt kb kc then true else if natListLt kc kb then false
           else !cb || cc) = true) :
    (if natListLt ka kc then true else if natListLt kc ka then false
     else !ca || cc) = true := by
  cases hab : natListLt ka kb with
  | true =>
    cases hbc : natListLt kb kc with
    | true => simp [natListLt_trans ka kb kc hab hbc]
    | false =>
      cases hcb : natListLt kc kb with
      | true => simp [hbc, hcb] at h2
      | false =>
        have hkeq : kb = kc := natListLt_eq_of_not kb kc hbc hcb
        subst hkeq
        simp [hab]
  | false =>
    cases hba : natListLt kb ka with
    | true => simp [hab, hba] at h1
    | false =>
      have hkeq : ka = kb := natListLt_eq_of_not ka kb hab hba
      subst hkeq
      simp [hab] at h1
      cases hac : natListLt ka kc with
      | true => simp [hac]
      | false =>
        simp [hac] at h2 ⊢
        cases hca : natListLt kc ka with
        | true => simp [hca] at h2
        | false =>
          simp [hca] at h2 ⊢
          revert h1 h2
          cases ca <;> cases cb <;> cases cc <;> simp

/-- The name/custom tail of the tuple comparison is total. -/
lemma nameCustom_total {ka kb : List Nat} {ca cb : Bool} :
    ((if natListLt ka kb then true else if natListLt kb ka then false
      else !ca || cb) ||
     (if natListLt kb ka then true else if natListLt ka kb then false
      else !cb || ca)) = true := by
  cases hab : natListLt ka kb with
  | true => simp
  | false =>
    cases hba : natListLt kb ka with
    | true => simp
    | false =>
      simp only [Bool.false_eq_true, if_false]
      cases ca <;> cases cb <;> simp

lemma resultLE_trans (a b c : EvalResult)
    (h1 : resultLE a b = true) (h2 : resultLE b c = true) : resultLE a c = true := by
  unfold resultLE strLt at h1 h2 ⊢
  refine lexStep_trans (fun h1' h2' => ?_) h1 h2
  exact lexStep_trans (fun h1'' h2'' => nameCustom_trans h1'' h2'') h1' h2'

lemma resultLE_total (a b : EvalResult) : (resultLE a b || resultLE b a) = true := by
  unfold resultLE strLt
  refine lexStep_total (lexStep_total nameCustom_total)

lemma resultLE_period (a b : EvalResult) (h : resultLE a b = true) :
    a.period_cost ≤ b.period_cost := by
  unfold resultLE at h
  by_cases h1 : a.period_cost < b.period_cost
  · exact le_of_lt h1
  · by_cases h2 : b.period_cost < a.period_cost
    · rw [if_neg h1, if_pos h2] at h
      exact Bool.noConfusion h
    · exact not_lt.mp h2

/-- C4 (amended): the ranking is a permutation of the evaluated results,
sorted by Python tuple comparison: ascending `period_cost`, and among equal
`period_cost` ordered by `year_cost`, then plan name (code points), then
the custom flag — not by insertion order. -/
theorem sortResults_ranking (rs : List EvalResult) :
    (sortResults rs).Perm rs ∧
    (sortResults rs).Pairwise (fun a b => resultLE a b = true) ∧
    (sortResults rs).Pairwise (fun a b => a.period_cost ≤ b.period_cost) := by
  have hsorted := List.sorted_mergeSort resultLE_trans
    (fun a b => resultLE_total a b) rs
  exact ⟨List.mergeSort_perm rs resultLE, hsorted,
    hsorted.imp (fun hab => resultLE_period _ _ hab)⟩

/-- C4 counterexample: two plans with identical `period_cost` (and
`year_cost`) evaluated in the order "B" then "A" are reported as "A" then
"B": the full tuple comparison reorders equal-cost plans by name, not by
insertion order. -/
theorem sortResults_insertion_order_counterexample :
    sortResults [⟨10, 3650, "B", false⟩, ⟨10, 3650, "A", false⟩] =
      [⟨10, 3650, "A", false⟩, ⟨10, 3650, "B", false⟩] ∧
    (⟨10, 3650, "B", false⟩ : EvalResult).period_cost =
      (⟨10, 3650, "A", false⟩ : EvalResult).period_cost ∧
    (⟨10, 3650, "B", false⟩ : EvalResult) ≠ ⟨10, 3650, "A", false⟩ := by
  refine ⟨?_, rfl, by simp⟩
  have hle : resultLE ⟨10, 3650, "B", false⟩ ⟨10, 3650, "A", false⟩ = false := by
    norm_num [resultLE, strLt, natListLt]
    decide
  simp [sortResults, List.mergeSort, hle]

/-! ### The free-hour selection scan -/

/-- The scan after the first `j` hours of the `for n in range(24)` loop. -/
def ekScan (hh : List Rat) (j : Nat) : Rat × Nat :=
  (List.range j).foldl (ElectricKiwi.maxStep hh) (0, 0)

lemma ekScan_succ (hh : List Rat) (j : Nat) :
    ekScan hh (j + 1) = ElectricKiwi.maxStep hh (ekScan hh j) j := by
  rw [ekScan, List.range_succ, List.foldl_append]
  rfl

lemma maxHour_eq_ekScan (hh : List Rat) : ElectricKiwi.maxHour hh = ekScan hh 24 := rfl

lemma hourTotal_nonneg (hh : List Rat) (hnn : ∀ x ∈ hh, 0 ≤ x) (n : Nat) :
    0 ≤ ElectricKiwi.hourTotal hh n := by
  apply List.sum_nonneg
  intro x hx
  exact hnn x (List.mem_of_mem_drop (List.mem_of_mem_take hx))

/-- Invariant of the scan: the tracked value is the maximum of 0 and the
eligible hourly totals seen so far, and the tracked index is either still
the initial 0 (no strict improvement yet) or the first eligible hour
attaining the tracked value. -/
lemma ekScan_inv (hh : List Rat) : ∀ j : Nat,
    0 ≤ (ekScan hh j).1 ∧
    (∀ n, n < j → ElectricKiwi.isPeakHour n = false →
      ElectricKiwi.hourTotal hh n ≤ (ekScan hh j).1) ∧
    (((ekScan hh j).1 = 0 ∧ (ekScan hh j).2 = 0) ∨
      (0 < (ekScan hh j).1 ∧ (ekScan hh j).2 < j ∧
       ElectricKiwi.isPeakHour (ekScan hh j).2 = false ∧
       ElectricKiwi.hourTotal hh (ekScan hh j).2 = (ekScan hh j).1 ∧
       ∀ m, m < (ekScan hh j).2 → ElectricKiwi.isPeakHour m = false →
         ElectricKiwi.hourTotal hh m < (ekScan hh j).1)) := by
  intro j
  induction j with
  | zero =>
    refine ⟨le_refl 0, ?_, Or.inl ⟨rfl, rfl⟩⟩
    intro n hn
    omega
  | succ j ih =>
    obtain ⟨hv0, hmax, hsel⟩ := ih
    rw [ekScan_succ]
    cases hp : ElectricKiwi.isPeakHour j with
    | true =>
      rw [ElectricKiwi.maxStep, if_pos hp]
      refine ⟨hv0, ?_, ?_⟩
      · intro n hn he
        rcases Nat.lt_succ_iff_lt_or_eq.mp hn with h | h
        · exact hmax n h he
        · subst h
          rw [he] at hp
          exact Bool.noConfusion hp
      · rcases hsel with h | ⟨h1, h2, h3, h4, h5⟩
        · exact Or.inl h
        · exact Or.inr ⟨h1, Nat.lt_succ_of_lt h2, h3, h4, h5⟩
    | false =>
      rw [ElectricKiwi.maxStep, if_neg (by simp [hp])]
      by_cases hgt : ElectricKiwi.hourTotal hh j > (ekScan hh j).1
      · rw [if_pos hgt]
        refine ⟨le_of_lt (lt_of_le_of_lt hv0 hgt), ?_, ?_⟩
        · intro n hn he
          rcases Nat.lt_succ_iff_lt_or_eq.mp hn with h | h
          · exact le_of_lt (lt_of_le_of_lt (hmax n h he) hgt)
          · subst h
            exact le_refl _
        · refine Or.inr ⟨lt_of_le_of_lt hv0 hgt, Nat.lt_succ_self j, hp, rfl, ?_⟩
          intro m hm he
          exact lt_of_le_of_lt (hmax m hm he) hgt
      · rw [if_neg hgt]
        refine ⟨hv0, ?_, ?_⟩
        · intro n hn he
          rcases Nat.lt_succ_iff_lt_or_eq.mp hn with h | h
          · exact hmax n h he
          · subst h
            exact not_lt.mp hgt
        · rcases hsel with h | ⟨h1, h2, h3, h4, h5⟩
          · exact Or.inl h
          · exact Or.inr ⟨h1, Nat.lt_succ_of_lt h2, h3, h4, h5⟩

/-- C3 (amended): on 48 nonnegative half-hour charges the scan selects an
eligible (non-peak) hour whose hourly total is maximal among eligible
hours, taking the lowest index on ties, and the aggregate is the sum of
all hourly totals except the selected hour; any other length falls back to
the plain sum. -/
theorem daily_total_free_hour (hh : List Rat) :
    (hh.length = 48 → (∀ x ∈ hh, 0 ≤ x) →
      (ElectricKiwi.maxHour hh).2 < 24 ∧
      ElectricKiwi.isPeakHour (ElectricKiwi.maxHour hh).2 = false ∧
      (∀ n, n < 24 → ElectricKiwi.isPeakHour n = false →
        ElectricKiwi.hourTotal hh n ≤ ElectricKiwi.hourTotal hh (ElectricKiwi.maxHour hh).2) ∧
      (∀ n, n < 24 → ElectricKiwi.isPeakHour n = false →
        ElectricKiwi.hourTotal hh n = ElectricKiwi.hourTotal hh (ElectricKiwi.maxHour hh).2 →
        (ElectricKiwi.maxHour hh).2 ≤ n) ∧
      ElectricKiwi.daily_total hh =
        (((List.range 24).filter (fun n => n ≠ (ElectricKiwi.maxHour hh).2)).map
          (ElectricKiwi.hourTotal hh)).sum) ∧
    (hh.length ≠ 48 → ElectricKiwi.daily_total hh = hh.sum) := by
  constructor
  · intro h48 hnn
    obtain ⟨hv0, hmax, hsel⟩ := ekScan_inv hh 24
    rw [maxHour_eq_ekScan]
    rcases hsel with ⟨hv, hk⟩ | ⟨h1, h2, h3, h4, h5⟩
    · have hzero : ElectricKiwi.hourTotal hh (ekScan hh 24).2 = 0 := by
        rw [hk]
        have hub := hmax 0 (by omega) rfl
        rw [hv] at hub
        exact le_antisymm hub (hourTotal_nonneg hh hnn 0)
      refine ⟨by omega, by rw [hk]; rfl, ?_, ?_, ?_⟩
      · intro n hn he
        rw [hzero]
        have := hmax n hn he
        rw [hv] at this
        exact this
      · intro n hn he _
        rw [hk]
        omega
      · simp [ElectricKiwi.daily_total, h48, maxHour_eq_ekScan]
    · refine ⟨h2, h3, ?_, ?_, ?_⟩
      · intro n hn he
        rw [h4]
        exact hmax n hn he
      · intro n hn he heq
        by_contra hc
        push_neg at hc
        have := h5 n hc he
        rw [heq, h4] at this
        exact absurd this (lt_irrefl _)
      · simp [ElectricKiwi.daily_total, h48, maxHour_eq_ekScan]
  · intro h48
    simp [ElectricKiwi.daily_total, h48]

/-- C3 witness: a uniform day of 48 half-hour charges of 1; the selected
hour is eligible and its total is maximal. -/
theorem daily_total_free_hour_witness :
    (ElectricKiwi.maxHour (List.replicate 48 (1 : Rat))).2 < 24 ∧
    ElectricKiwi.isPeakHour (ElectricKiwi.maxHour (List.replicate 48 (1 : Rat))).2 = false ∧
    (∀ n, n < 24 → ElectricKiwi.isPeakHour n = false →
      ElectricKiwi.hourTotal (List.replicate 48 (1 : Rat)) n ≤
        ElectricKiwi.hourTotal (List.replicate 48 (1 : Rat))
          (ElectricKiwi.maxHour (List.replicate 48 (1 : Rat))).2) := by
  have h := (daily_total_free_hour (List.replicate 48 (1 : Rat))).1 (by simp)
    (fun x hx => by rw [List.eq_of_mem_replicate hx]; norm_num)
  exact ⟨h.1, h.2.1, h.2.2.1⟩

lemma list_sum_nonpos : ∀ (l : List Rat), (∀ x ∈ l, x ≤ 0) → l.sum ≤ 0 := by
  intro l
  induction l with
  | nil => intro _; simp
  | cons a l ih =>
    intro h
    have ha := h a (List.mem_cons_self a l)
    have hl := ih (fun x hx => h x (List.mem_cons_of_mem a hx))
    simp only [List.sum_cons]
    linarith

/-- A 48-slot day whose first half hour has a negative charge and the rest
zero. -/
def anomalousDay : List Rat := -1 :: List.replicate 47 0

lemma anomalousDay_nonpos (x : Rat) (hx : x ∈ anomalousDay) : x ≤ 0 := by
  rcases List.mem_cons.mp hx with h | h
  · rw [h]
    norm_num
  · rw [List.eq_of_mem_replicate h]

lemma anomalousDay_hourTotal_nonpos (n : Nat) :
    ElectricKiwi.hourTotal anomalousDay n ≤ 0 := by
  apply list_sum_nonpos
  intro x hx
  exact anomalousDay_nonpos x (List.mem_of_mem_drop (List.mem_of_mem_take hx))

/-- C3 counterexample: with a negative charge in hour 0, the scan never
improves on its initial value `(0, 0)`, so it selects hour 0 even though
the eligible hour 1 has a strictly greater hourly total: the selected hour
is not the maximum-sum eligible hour. -/
theorem daily_total_free_hour_counterexample :
    anomalousDay.length = 48 ∧
    (ElectricKiwi.maxHour anomalousDay).2 = 0 ∧
    ElectricKiwi.isPeakHour 1 = false ∧
    ElectricKiwi.hourTotal anomalousDay (ElectricKiwi.maxHour anomalousDay).2 <
      ElectricKiwi.hourTotal anomalousDay 1 := by
  have hsel : (ElectricKiwi.maxHour anomalousDay).2 = 0 := by
    rw [maxHour_eq_ekScan]
    obtain ⟨_, _, hsel⟩ := ekScan_inv anomalousDay 24
    rcases hsel with ⟨_, hk⟩ | ⟨h1, _, _, h4, _⟩
    · exact hk
    · have := anomalousDay_hourTotal_nonpos (ekScan anomalousDay 24).2
      rw [h4] at this
      linarith
  have h0 : ElectricKiwi.hourTotal anomalousDay 0 = -1 := by
    norm_num [ElectricKiwi.hourTotal, anomalousDay, List.replicate]
  have h1 : ElectricKiwi.hourTotal anomalousDay 1 = 0 := by
    norm_num [ElectricKiwi.hourTotal, anomalousDay, List.replicate]
  refine ⟨by simp [anomalousDay], hsel, rfl, ?_⟩
  rw [hsel, h0, h1]
  norm_num
